import Mathlib

/-!
Verification development for the NeuroM morphology core: the in-memory tree
data model (points, sections, neurites, morphologies), the traversal engine,
the geometry engine (lengths, path distances, bifurcation angles) and the
string-keyed feature registry with its `get` dispatch entry point.

The repository ships only packaging material and a tutorial notebook; the
engine itself is specified in `spec.md`.  Every definition below is therefore
modelled from the spec, and each doc comment records which part of the spec
it embeds.  Real-number geometry is embedded with `ℝ` (the spec speaks of
real numbers); machine floating point is not modelled.
-/

namespace NeuroM

/-- Modelled from the spec: a 3D coordinate, the positional part of a Point. -/
structure Vec3 where
  x : ℝ
  y : ℝ
  z : ℝ

/-- Modelled from the spec §3: `Point` is (x, y, z, radius). -/
structure Point where
  pos : Vec3
  radius : ℝ

/-- Modelled from the spec §3: closed enumerated branch-type tag. -/
inductive BranchType where
  | soma
  | axon
  | basal_dendrite
  | apical_dendrite
  | undefined
deriving DecidableEq

/-- Modelled from the spec §3/§9: the branch-type filter key is the closed
tag set together with an explicit match-all wildcard `ALL`. -/
inductive NeuriteFilter where
  | all
  | only (t : BranchType)

/-- Modelled from the spec §3: a Section is an ordered sequence of Points, a
BranchType, and an ownership list of child Sections.  Representing the
parent/child graph as a rooted tree value makes the spec's single-root /
acyclic invariant hold by construction (spec §4.1: violations are prevented
at construction time, never detected during traversal). -/
inductive SectionTree : Type where
  | node (points : List Point) (btype : BranchType) (children : List SectionTree)

/-- Modelled from the spec §4.1: `children(section)` structural lookup. -/
def SectionTree.children : SectionTree → List SectionTree
  | .node _ _ cs => cs

/-- Point list of a section. -/
def SectionTree.points : SectionTree → List Point
  | .node ps _ _ => ps

/-- Branch-type tag of a section. -/
def SectionTree.btype : SectionTree → BranchType
  | .node _ b _ => b

/-- Modelled from the spec §3: a Soma is a center point and a radius;
radial distances are measured from its center. -/
structure Soma where
  center : Vec3
  radius : ℝ

/-- Modelled from the spec §3: a Neurite owns its root Section (and
transitively every descendant). -/
structure Neurite where
  root : SectionTree

/-- Modelled from the spec §3: the neurite as a whole is classified by its
root section's type. -/
def neurite_type (n : Neurite) : BranchType :=
  n.root.btype

/-- Modelled from the spec §3: a Morphology owns a Soma, an ordered
collection of Neurites and an incidental name. -/
structure Morphology where
  soma : Soma
  neurites : List Neurite
  name : String

/-- Modelled from the spec §7: the error kinds of the core. -/
inductive NeuromError where
  | MalformedTree
  | UnknownFeature
  | DegenerateGeometry
deriving DecidableEq

/-- Modelled from the spec §4.3: whether a neurite's BranchType matches a
branch-type filter; the `all` wildcard matches any tag. -/
def matches_filter : NeuriteFilter → Neurite → Bool
  | .all, _ => true
  | .only bt, n => neurite_type n == bt

/-- Modelled from the spec §4.1: `is_bifurcation(section)` is true iff the
section has 2 or more children. -/
def is_bifurcation (s : SectionTree) : Bool :=
  2 ≤ s.children.length

/-- Modelled from the spec §4.1: `is_leaf(section)` is true iff the section
has 0 children. -/
def is_leaf (s : SectionTree) : Bool :=
  s.children.length = 0

mutual

/-- Modelled from the spec §4.1: the pre-order depth-first section ordering
produced by `iter_sections` — a section strictly before its descendants,
children in their stored order (stable, not re-sorted). -/
def preorder : SectionTree → List SectionTree
  | .node ps b cs => .node ps b cs :: preorderL cs

/-- Pre-order traversal of a stored list of sibling subtrees, in order. -/
def preorderL : List SectionTree → List SectionTree
  | [] => []
  | c :: cs => preorder c ++ preorderL cs

end

/-- Modelled from the spec §4.1: `iter_sections(neurite, pre-order-DFS)`,
the canonical ordering used by every feature that iterates all sections of a
neurite.  (The breadth-first variant of `order` is not used by any claim.) -/
def iter_sections (n : Neurite) : List SectionTree :=
  preorder n.root

/-- Modelled from the spec §4.1: `iter_segments(section)` — each consecutive
point pair within the section, in point order. -/
def iter_segments (ps : List Point) : List (Point × Point) :=
  ps.zip ps.tail

mutual

/-- Address (list of child indices from the root) of every section of the
tree, in pre-order depth-first order.  Addresses identify occurrences of
sections, which makes "every section exactly once" a statement about a
Nodup list. -/
def preorderAddrs : SectionTree → List (List ℕ)
  | .node _ _ cs => [] :: preorderAddrsL 0 cs

/-- Addresses contributed by the sibling subtrees `cs`, the first sibling
carrying child index `i`. -/
def preorderAddrsL : ℕ → List SectionTree → List (List ℕ)
  | _, [] => []
  | i, c :: cs => (preorderAddrs c).map (fun a => i :: a) ++ preorderAddrsL (i + 1) cs

end

/-- Subtree of `t` reached by following a list of child indices. -/
def subtreeAt : SectionTree → List ℕ → Option SectionTree
  | t, [] => some t
  | t, i :: a =>
    match t.children.get? i with
    | some c => subtreeAt c a
    | none => none

/-- Whether an address denotes a section of the tree. -/
def validAddr : SectionTree → List ℕ → Bool
  | _, [] => true
  | t, i :: a =>
    match t.children.get? i with
    | some c => validAddr c a
    | none => false

/-- Modelled from the spec §4.1: `path_to_root(section)` — the section
itself and then its ancestors up to and including the neurite root, as
addresses, ordered from the section toward the root. -/
def path_to_root_addrs (a : List ℕ) : List (List ℕ) :=
  match a with
  | [] => [[]]
  | i :: rest => (i :: rest) :: path_to_root_addrs (i :: rest).dropLast
termination_by a.length
decreasing_by
  simp [List.length_dropLast]

/-- Difference of two 3D coordinates, the direction vector from `v` to `u`. -/
def sub3 (u v : Vec3) : Vec3 :=
  ⟨u.x - v.x, u.y - v.y, u.z - v.z⟩

/-- Dot product of two 3D vectors. -/
noncomputable def dot3 (u v : Vec3) : ℝ :=
  u.x * v.x + u.y * v.y + u.z * v.z

/-- Euclidean norm of a 3D vector. -/
noncomputable def norm3 (u : Vec3) : ℝ :=
  Real.sqrt (dot3 u u)

/-- Euclidean distance between two 3D coordinates. -/
noncomputable def dist3 (u v : Vec3) : ℝ :=
  norm3 (sub3 u v)

/-- Modelled from the spec §4.2: `segment_length(segment)` is the Euclidean
distance between its two points. -/
noncomputable def segment_length (seg : Point × Point) : ℝ :=
  dist3 seg.1.pos seg.2.pos

/-- Modelled from the spec §4.2: `section_length(section)` is the sum of
`segment_length` over `iter_segments(section)`. -/
noncomputable def section_length (s : SectionTree) : ℝ :=
  ((iter_segments s.points).map segment_length).sum

/-- Modelled from the spec §4.1: `path_to_root(section)` — the sections on
the path from this section (inclusive) to the neurite root, identified by
the section's address in the root's tree. -/
def path_to_root (t : SectionTree) (a : List ℕ) : List SectionTree :=
  (path_to_root_addrs a).filterMap (subtreeAt t)

/-- Modelled from the spec §4.2: `path_distance(section)` is the sum of
`section_length` over every section on `path_to_root(section)`. -/
noncomputable def path_distance (t : SectionTree) (a : List ℕ) : ℝ :=
  ((path_to_root t a).map section_length).sum

/-- Modelled from the spec §4.2: `radial_distance(point, soma)` is the
Euclidean distance from the point to the soma center. -/
noncomputable def radial_distance (p : Vec3) (soma : Soma) : ℝ :=
  dist3 p soma.center

/-- Position of the `k`-th point of a section (origin if out of range; the
spec's well-formedness contract guarantees at least 2 points). -/
def point_at (s : SectionTree) (k : ℕ) : Vec3 :=
  ((s.points.get? k).map Point.pos).getD ⟨0, 0, 0⟩

/-- Position of the last point of a section: the bifurcation point when the
section branches, and the section's designated representative point for
per-section radial distance (spec §4.2). -/
def end_point (s : SectionTree) : Vec3 :=
  (s.points.getLast?.map Point.pos).getD ⟨0, 0, 0⟩

open Classical in
/-- Modelled from the spec §4.2: angle computation by the
dot-product/arccos formula on normalized direction vectors; a zero-length
direction vector is the defined failure `DegenerateGeometry` (§7), not a
silent NaN. -/
noncomputable def angleBetween (u v : Vec3) : Except NeuromError ℝ :=
  if norm3 u = 0 ∨ norm3 v = 0 then .error .DegenerateGeometry
  else .ok (Real.arccos (dot3 u v / (norm3 u * norm3 v)))

/-- Modelled from the spec §4.2: `local_bifurcation_angle(section)` —
defined only when the section has exactly 2 children: the angle between the
first segment-direction vectors of its two children (vectors from the
bifurcation point to each child's second point).  `none` (undefined,
excluded from results, not an error) for 0, 1, or more than 2 children. -/
noncomputable def local_bifurcation_angle (s : SectionTree) :
    Option (Except NeuromError ℝ) :=
  match s.children with
  | [c1, c2] =>
    some (angleBetween (sub3 (point_at c1 1) (end_point s))
                       (sub3 (point_at c2 1) (end_point s)))
  | _ => none

/-- Modelled from the spec §4.2: terminal point of a subtree, following the
designated downstream path (first stored child at every branch) to a leaf. -/
def terminal_point : SectionTree → Vec3
  | .node ps _ [] => ((ps.getLast?).map Point.pos).getD ⟨0, 0, 0⟩
  | .node _ _ (c :: _) => terminal_point c

/-- Modelled from the spec §4.2: `remote_bifurcation_angle(section)` — same
precondition as the local angle, but using the vector from the bifurcation
point to each child subtree's terminal point. -/
noncomputable def remote_bifurcation_angle (s : SectionTree) :
    Option (Except NeuromError ℝ) :=
  match s.children with
  | [c1, c2] =>
    some (angleBetween (sub3 (terminal_point c1) (end_point s))
                       (sub3 (terminal_point c2) (end_point s)))
  | _ => none

/-- Modelled from the spec §4.3: a registered feature is either
neurite-level or morphology-level.  A neurite-level function receives the
owning morphology's soma (the geometry engine measures radial distances
from the soma center, spec §4.2) and the neurite. -/
inductive Feature where
  | neuriteF (f : Soma → Neurite → List ℝ)
  | morphF (f : Morphology → NeuriteFilter → List ℝ)

/-- Modelled from the spec §4.3: `number_of_sections` — count of
`iter_sections`, a neurite-level scalar feature. -/
noncomputable def number_of_sections_feat (_ : Soma) (n : Neurite) : List ℝ :=
  [((iter_sections n).length : ℝ)]

/-- Modelled from the spec §4.3: `section_lengths` — `section_length`
mapped over `iter_sections`, order = traversal order. -/
noncomputable def section_lengths_feat (_ : Soma) (n : Neurite) : List ℝ :=
  (iter_sections n).map section_length

/-- Modelled from the spec §4.3: `segment_lengths` — `segment_length`
flat-mapped over every section's segments, section order then segment
order. -/
noncomputable def segment_lengths_feat (_ : Soma) (n : Neurite) : List ℝ :=
  ((iter_sections n).map (fun s => (iter_segments s.points).map segment_length)).flatten

/-- Modelled from the spec §4.3/§9: `local_bifurcation_angles` — the local
angle mapped over the sections where the precondition is met, skipping the
others.  Per the documented policy choice left open by the spec (§9), a
per-section `DegenerateGeometry` failure is also skipped rather than
aborting the batch. -/
noncomputable def local_bifurcation_angles_feat (_ : Soma) (n : Neurite) : List ℝ :=
  (iter_sections n).filterMap (fun s => (local_bifurcation_angle s).bind Except.toOption)

/-- Modelled from the spec §4.3/§9: `remote_bifurcation_angles`, with the
same skip policy as the local variant. -/
noncomputable def remote_bifurcation_angles_feat (_ : Soma) (n : Neurite) : List ℝ :=
  (iter_sections n).filterMap (fun s => (remote_bifurcation_angle s).bind Except.toOption)

/-- Modelled from the spec §4.3: `section_path_distances` — the path
distance of every section of the neurite, traversal order. -/
noncomputable def section_path_distances_feat (_ : Soma) (n : Neurite) : List ℝ :=
  (preorderAddrs n.root).map (path_distance n.root)

/-- Modelled from the spec §4.3: `section_radial_distances` — the radial
distance of every section's representative (last) point from the soma
center. -/
noncomputable def section_radial_distances_feat (soma : Soma) (n : Neurite) : List ℝ :=
  (iter_sections n).map (fun s => radial_distance (end_point s) soma)

/-- Modelled from the spec §4.3: `number_of_neurites` — count of matching
neurites, a morphology-level feature. -/
noncomputable def number_of_neurites_feat (m : Morphology) (t : NeuriteFilter) : List ℝ :=
  [((m.neurites.filter (matches_filter t)).length : ℝ)]

/-- Modelled from the spec §4.3: `number_of_sections_per_neurite` — one
section count per matching neurite, order-preserving. -/
noncomputable def number_of_sections_per_neurite_feat
    (m : Morphology) (t : NeuriteFilter) : List ℝ :=
  (m.neurites.filter (matches_filter t)).map (fun n => ((iter_sections n).length : ℝ))

/-- Modelled from the spec §4.3/§9: the Feature Registry — a closed,
name-keyed table populated once, mapping each feature name to its level and
extraction function. -/
noncomputable def registry : String → Option Feature
  | "number_of_sections" => some (.neuriteF number_of_sections_feat)
  | "section_lengths" => some (.neuriteF section_lengths_feat)
  | "segment_lengths" => some (.neuriteF segment_lengths_feat)
  | "local_bifurcation_angles" => some (.neuriteF local_bifurcation_angles_feat)
  | "remote_bifurcation_angles" => some (.neuriteF remote_bifurcation_angles_feat)
  | "section_path_distances" => some (.neuriteF section_path_distances_feat)
  | "section_radial_distances" => some (.neuriteF section_radial_distances_feat)
  | "number_of_neurites" => some (.morphF number_of_neurites_feat)
  | "number_of_sections_per_neurite" => some (.morphF number_of_sections_per_neurite_feat)
  | _ => none

/-- Modelled from the spec §4.3: `get(name, morphology, neurite_type)` —
looks the name up (failing with `UnknownFeature` if absent); a
morphology-level feature is invoked once on the whole morphology with the
filter passed through; a neurite-level feature is applied to each neurite
whose BranchType matches the filter, in morphology order, and the result
sequences are concatenated in that order. -/
noncomputable def get (name : String) (m : Morphology) (t : NeuriteFilter) :
    Except NeuromError (List ℝ) :=
  match registry name with
  | none => .error .UnknownFeature
  | some (.neuriteF f) => .ok (((m.neurites.filter (matches_filter t)).map (f m.soma)).flatten)
  | some (.morphF f) => .ok (f m t)

/-- Modelled from the spec §6: the result record of the statistics
collaborator `fit` — fitted parameters and the error pair
(distance, p_value). -/
structure FitResults where
  params : List ℝ
  errs : ℝ × ℝ

/-- Distribution names the statistics collaborator accepts (the tutorial
exercises norm, lognorm and logistic). -/
def supported_distributions : List String :=
  ["norm", "lognorm", "logistic"]

/-- Arithmetic mean of a data sequence. -/
noncomputable def data_mean (data : List ℝ) : ℝ :=
  data.sum / data.length

/-- Standard deviation of a data sequence. -/
noncomputable def data_std (data : List ℝ) : ℝ :=
  Real.sqrt (((data.map (fun x => (x - data_mean data) ^ 2)).sum) / data.length)

/-- Modelled from the spec §6: the goodness-of-fit error pair
(Kolmogorov–Smirnov distance, p-value) of the statistics collaborator.  The
fitting algorithm itself is explicitly out of scope (spec §1: an opaque
external service), so the pair is represented abstractly. -/
noncomputable def fit_errors (data : List ℝ) (distribution : String) : ℝ × ℝ :=
  (data.length, String.length distribution)

/-- Modelled from the spec §6: `fit(data, distribution) -> FitResult` — the
statistics collaborator's call contract.  The fitting algorithm is out of
scope (spec §1); the normal-distribution parameters follow the tutorial's
documentation (`params` stores the mu and sigma). -/
noncomputable def fit (data : List ℝ) (distribution : String) : Option FitResults :=
  if distribution ∈ supported_distributions then
    some { params := [data_mean data, data_std data]
           errs := fit_errors data distribution }
  else none

/-- Point constructor for concrete scenarios (unit radius). -/
noncomputable def pt (x y z : ℝ) : Point := ⟨⟨x, y, z⟩, 1⟩

/-- First child of the concrete C5 bifurcation: points (1,0,0)–(2,1,0). -/
noncomputable def child1C5 : SectionTree := .node [pt 1 0 0, pt 2 1 0] .axon []

/-- Second child of the concrete C5 bifurcation: points (1,0,0)–(2,-1,0). -/
noncomputable def child2C5 : SectionTree := .node [pt 1 0 0, pt 2 (-1) 0] .axon []

/-- Root of the concrete C5 axon: points (0,0,0)–(1,0,0), two children. -/
noncomputable def rootC5 : SectionTree := .node [pt 0 0 0, pt 1 0 0] .axon [child1C5, child2C5]

/-- The concrete C5 axon neurite. -/
noncomputable def neuriteC5 : Neurite := ⟨rootC5⟩

/-- Unit soma at the origin. -/
noncomputable def somaO : Soma := ⟨⟨0, 0, 0⟩, 1⟩

/-- The concrete C5 morphology: one axon neurite with a perfect bifurcation. -/
noncomputable def morphC5 : Morphology := ⟨somaO, [neuriteC5], "C5"⟩

/-- Single-section axon used by the two-neurite morphology below. -/
noncomputable def secA : SectionTree := .node [pt 0 0 0, pt 1 0 0] .axon []

/-- A single-section axon neurite. -/
noncomputable def neuriteA : Neurite := ⟨secA⟩

/-- A morphology with two single-section axon neurites. -/
noncomputable def morphTwo : Morphology := ⟨somaO, [neuriteA, neuriteA], "two"⟩

/-- Structural induction principle for section trees: to prove a property of
every tree it suffices to prove it for a node assuming it for every stored
child. -/
theorem sectionTree_ind (P : SectionTree → Prop)
    (h : ∀ ps b cs, (∀ c ∈ cs, P c) → P (SectionTree.node ps b cs)) :
    ∀ t, P t
  | SectionTree.node ps b cs => h ps b cs (fun c hc => sectionTree_ind P h c)
termination_by t => sizeOf t
decreasing_by
  have := List.sizeOf_lt_of_mem hc
  simp only [SectionTree.node.sizeOf_spec]
  omega

theorem mem_preorderAddrsL_shape :
    ∀ (cs : List SectionTree) (i : ℕ) (x : List ℕ), x ∈ preorderAddrsL i cs →
      ∃ j a, x = j :: a ∧ i ≤ j := by
  intro cs
  induction cs with
  | nil => intro i x hx; simp [preorderAddrsL] at hx
  | cons c cs ih =>
    intro i x hx
    rw [preorderAddrsL, List.mem_append] at hx
    rcases hx with hx | hx
    · rcases List.mem_map.1 hx with ⟨a, _, rfl⟩
      exact ⟨i, a, rfl, le_refl i⟩
    · rcases ih (i + 1) x hx with ⟨j, a, rfl, hj⟩
      exact ⟨j, a, rfl, le_trans (Nat.le_succ i) hj⟩

theorem sorted_preorderAddrsL (cs : List SectionTree) :
    ∀ i : ℕ, (∀ c ∈ cs, (preorderAddrs c).Pairwise (List.Lex (· < ·))) →
      (preorderAddrsL i cs).Pairwise (List.Lex (· < ·)) := by
  induction cs with
  | nil => intro i _; simp [preorderAddrsL]
  | cons c cs ih =>
    intro i hcs
    rw [preorderAddrsL]
    refine List.pairwise_append.2 ⟨?_, ?_, ?_⟩
    · exact List.Pairwise.map _ (fun a b hab => List.Lex.cons hab)
        (hcs c (List.mem_cons_self c cs))
    · exact ih (i + 1) (fun c' hc' => hcs c' (List.mem_cons_of_mem c hc'))
    · intro x hx y hy
      rcases List.mem_map.1 hx with ⟨a, _, rfl⟩
      rcases mem_preorderAddrsL_shape cs (i + 1) y hy with ⟨j, b, rfl, hj⟩
      exact List.Lex.rel (lt_of_lt_of_le (Nat.lt_succ_self i) hj)

theorem sorted_preorderAddrs :
    ∀ t : SectionTree, (preorderAddrs t).Pairwise (List.Lex (· < ·)) := by
  refine sectionTree_ind _ ?_
  intro ps b cs hcs
  rw [preorderAddrs]
  refine List.pairwise_cons.2 ⟨?_, sorted_preorderAddrsL cs 0 hcs⟩
  intro y hy
  rcases mem_preorderAddrsL_shape cs 0 y hy with ⟨j, a, rfl, _⟩
  exact List.Lex.nil

theorem nodup_preorderAddrs (t : SectionTree) : (preorderAddrs t).Nodup :=
  List.Sorted.nodup (sorted_preorderAddrs t)

theorem mem_preorderAddrsL_iff :
    ∀ (cs : List SectionTree) (i : ℕ) (x : List ℕ),
      (∀ c ∈ cs, ∀ a, a ∈ preorderAddrs c ↔ validAddr c a = true) →
      (x ∈ preorderAddrsL i cs ↔
        ∃ j a c, x = j :: a ∧ i ≤ j ∧ cs.get? (j - i) = some c ∧ validAddr c a = true) := by
  intro cs
  induction cs with
  | nil =>
    intro i x _
    simp [preorderAddrsL]
  | cons c cs ih =>
    intro i x hcs
    rw [preorderAddrsL, List.mem_append]
    constructor
    · intro hx
      rcases hx with hx | hx
      · rcases List.mem_map.1 hx with ⟨a, ha, rfl⟩
        refine ⟨i, a, c, rfl, le_refl i, ?_, ?_⟩
        · simp
        · exact (hcs c (List.mem_cons_self c cs) a).1 ha
      · rcases (ih (i + 1) x (fun c' hc' a => hcs c' (List.mem_cons_of_mem c hc') a)).1 hx
          with ⟨j, a, c', rfl, hj, hget, hvalid⟩
        refine ⟨j, a, c', rfl, le_trans (Nat.le_succ i) hj, ?_, hvalid⟩
        have hji : j - i = (j - (i + 1)) + 1 := by omega
        rw [hji]
        simpa using hget
    · rintro ⟨j, a, c', rfl, hj, hget, hvalid⟩
      rcases Nat.eq_or_lt_of_le hj with rfl | hlt
      · left
        simp at hget
        subst hget
        exact List.mem_map.2 ⟨a, (hcs c (List.mem_cons_self c cs) a).2 hvalid, rfl⟩
      · right
        refine (ih (i + 1) (j :: a) (fun c'' hc'' a' => hcs c'' (List.mem_cons_of_mem c hc'') a')).2
          ⟨j, a, c', rfl, hlt, ?_, hvalid⟩
        have hji : j - i = (j - (i + 1)) + 1 := by omega
        rw [hji] at hget
        simpa using hget

theorem mem_preorderAddrs_iff_valid :
    ∀ (t : SectionTree) (a : List ℕ), a ∈ preorderAddrs t ↔ validAddr t a = true := by
  refine sectionTree_ind _ ?_
  intro ps b cs hcs a
  rw [preorderAddrs]
  cases a with
  | nil => simp [validAddr]
  | cons j rest =>
    rw [List.mem_cons]
    simp only [List.cons.injEq, false_and, false_or, reduceCtorEq]
    rw [mem_preorderAddrsL_iff cs 0 (j :: rest) hcs]
    constructor
    · rintro ⟨j', a', c, heq, _, hget, hvalid⟩
      rcases List.cons.inj heq with ⟨rfl, rfl⟩
      rw [validAddr]
      simp only [SectionTree.children]
      rw [Nat.sub_zero] at hget
      rw [hget]
      exact hvalid
    · intro hv
      rw [validAddr] at hv
      simp only [SectionTree.children] at hv
      rcases h : cs.get? j with _ | c
      · rw [h] at hv; cases hv
      · rw [h] at hv
        exact ⟨j, rest, c, rfl, Nat.zero_le j, by rw [Nat.sub_zero]; exact h, hv⟩

theorem validAddr_append_left :
    ∀ (a : List ℕ) (b : List ℕ) (t : SectionTree),
      validAddr t (a ++ b) = true → validAddr t a = true := by
  intro a
  induction a with
  | nil => intro b t _; rfl
  | cons i a' ih =>
    intro b t hv
    rw [List.cons_append, validAddr] at hv
    rw [validAddr]
    rcases h : t.children.get? i with _ | c
    · rw [h] at hv; cases hv
    · rw [h] at hv
      exact ih b c hv

theorem validAddr_concat_lt :
    ∀ (a : List ℕ) (t : SectionTree) (i j : ℕ), i < j →
      validAddr t (a ++ [j]) = true → validAddr t (a ++ [i]) = true := by
  intro a
  induction a with
  | nil =>
    intro t i j hij hv
    rw [List.nil_append, validAddr] at hv
    rw [List.nil_append, validAddr]
    rcases h : t.children.get? j with _ | c
    · rw [h] at hv; cases hv
    · have hj : j < t.children.length := List.get?_eq_some.1 h |>.1
      have hi : i < t.children.length := lt_trans hij hj
      rcases List.get?_eq_some.2 ⟨hi, rfl⟩ with h'
      rw [h']
      rfl
  | cons k a' ih =>
    intro t i j hij hv
    rw [List.cons_append, validAddr] at hv
    rw [List.cons_append, validAddr]
    rcases h : t.children.get? k with _ | c
    · rw [h] at hv; cases hv
    · rw [h] at hv
      exact ih c i j hij hv

theorem filterMap_preorderAddrsL :
    ∀ (cs : List SectionTree) (ps : List Point) (b : BranchType) (pre : List SectionTree),
      (∀ c ∈ cs, (preorderAddrs c).filterMap (subtreeAt c) = preorder c) →
      (preorderAddrsL pre.length cs).filterMap
          (subtreeAt (SectionTree.node ps b (pre ++ cs))) = preorderL cs := by
  intro cs
  induction cs with
  | nil => intro ps b pre _; simp [preorderAddrsL, preorderL]
  | cons c cs ih =>
    intro ps b pre hcs
    rw [preorderAddrsL, List.filterMap_append, preorderL]
    have h1 : (List.map (fun a => pre.length :: a) (preorderAddrs c)).filterMap
        (subtreeAt (SectionTree.node ps b (pre ++ c :: cs))) = preorder c := by
      rw [List.filterMap_map]
      have heach : ∀ a : List ℕ,
          (subtreeAt (SectionTree.node ps b (pre ++ c :: cs)) ∘ fun a => pre.length :: a) a
            = subtreeAt c a := by
        intro a
        simp only [Function.comp_apply, subtreeAt, SectionTree.children]
        have hget : (pre ++ c :: cs).get? pre.length = some c := by
          rw [List.get?_eq_getElem?, List.getElem?_append_right (le_refl pre.length)]
          simp
        rw [hget]
      rw [funext heach]
      exact hcs c (List.mem_cons_self c cs)
    have h2 : (preorderAddrsL (pre.length + 1) cs).filterMap
        (subtreeAt (SectionTree.node ps b (pre ++ c :: cs))) = preorderL cs := by
      have hlen : pre.length + 1 = (pre ++ [c]).length := by simp
      have happ : pre ++ c :: cs = (pre ++ [c]) ++ cs := by simp
      rw [hlen, happ]
      exact ih ps b (pre ++ [c]) (fun c' hc' => hcs c' (List.mem_cons_of_mem c hc'))
    rw [h1, h2]

theorem filterMap_preorderAddrs :
    ∀ t : SectionTree, (preorderAddrs t).filterMap (subtreeAt t) = preorder t := by
  refine sectionTree_ind _ ?_
  intro ps b cs hcs
  rw [preorderAddrs, preorder, List.filterMap_cons]
  have h0 : subtreeAt (SectionTree.node ps b cs) [] = some (SectionTree.node ps b cs) := rfl
  rw [h0]
  have := filterMap_preorderAddrsL cs ps b [] hcs
  rw [List.nil_append] at this
  rw [show ([] : List SectionTree).length = 0 from rfl] at this
  rw [this]

theorem sorted_pair_sublist {α : Type} {r : α → α → Prop} [IsAsymm α r] :
    ∀ {l : List α} {x y : α}, l.Pairwise r → r x y → x ∈ l → y ∈ l →
      List.Sublist [x, y] l := by
  intro l
  induction l with
  | nil => intro x y _ _ hx; cases hx
  | cons a l ih =>
    intro x y hs hr hx hy
    rcases List.mem_cons.1 hx with rfl | hx'
    · have hy' : y ∈ l := by
        rcases List.mem_cons.1 hy with rfl | h
        · exact absurd hr (IsAsymm.asymm _ _ hr)
        · exact h
      exact (List.singleton_sublist.2 hy').cons₂ x
    · have hy' : y ∈ l := by
        rcases List.mem_cons.1 hy with rfl | h
        · have hyx : r y x := (List.pairwise_cons.1 hs).1 x hx'
          exact absurd hr (IsAsymm.asymm _ _ hyx)
        · exact h
      exact (ih (List.pairwise_cons.1 hs).2 hr hx' hy').cons a

theorem lex_append_cons (a : List ℕ) (i : ℕ) (rest : List ℕ) :
    List.Lex (· < ·) a (a ++ i :: rest) := by
  induction a with
  | nil => exact List.Lex.nil
  | cons x xs ih => exact List.Lex.cons ih

theorem path_to_root_addrs_nil : path_to_root_addrs [] = [[]] := by
  rw [path_to_root_addrs]

theorem path_to_root_addrs_concat (a : List ℕ) (i : ℕ) :
    path_to_root_addrs (a ++ [i]) = (a ++ [i]) :: path_to_root_addrs a := by
  cases a with
  | nil =>
    rw [List.nil_append, path_to_root_addrs]
    simp [path_to_root_addrs]
  | cons x xs =>
    rw [List.cons_append, path_to_root_addrs]
    rw [show (x :: (xs ++ [i])).dropLast = x :: xs from by
      rw [← List.cons_append, List.dropLast_concat]]

theorem section_length_nonneg (s : SectionTree) : 0 ≤ section_length s := by
  apply List.sum_nonneg
  intro x hx
  rcases List.mem_map.1 hx with ⟨pq, _, rfl⟩
  simp only [segment_length, dist3, norm3]
  exact Real.sqrt_nonneg _

theorem path_distance_concat (t : SectionTree) (a : List ℕ) (i : ℕ) :
    path_distance t (a ++ [i]) =
      (match subtreeAt t (a ++ [i]) with
       | some s => section_length s
       | none => 0) + path_distance t a := by
  rw [path_distance, path_to_root, path_to_root_addrs_concat, List.filterMap_cons]
  rcases h : subtreeAt t (a ++ [i]) with _ | s
  · rw [path_distance, path_to_root]
    simp
  · rw [path_distance, path_to_root]
    simp

theorem path_distance_root (t : SectionTree) : path_distance t [] = section_length t := by
  rw [path_distance, path_to_root, path_to_root_addrs_nil]
  simp [subtreeAt]

theorem path_distance_mono (t : SectionTree) (a : List ℕ) :
    ∀ b : List ℕ, path_distance t a ≤ path_distance t (a ++ b) := by
  intro b
  induction b using List.reverseRecOn with
  | nil => simp
  | append_singleton b i ih =>
    rw [← List.append_assoc, path_distance_concat]
    rcases h : subtreeAt t (a ++ b ++ [i]) with _ | s
    · simpa using ih
    · have hnn := section_length_nonneg s
      simp only []
      calc path_distance t a ≤ path_distance t (a ++ b) := ih
        _ ≤ section_length s + path_distance t (a ++ b) := by linarith

theorem get_eq_of_neuriteF {name : String} {f : Soma → Neurite → List ℝ}
    (m : Morphology) (t : NeuriteFilter)
    (hreg : registry name = some (Feature.neuriteF f)) :
    get name m t
      = Except.ok (((m.neurites.filter (matches_filter t)).map (f m.soma)).flatten) := by
  unfold get
  rw [hreg]

theorem get_eq_of_morphF {name : String} {f : Morphology → NeuriteFilter → List ℝ}
    (m : Morphology) (t : NeuriteFilter)
    (hreg : registry name = some (Feature.morphF f)) :
    get name m t = Except.ok (f m t) := by
  unfold get
  rw [hreg]

theorem get_eq_of_unregistered {name : String} (m : Morphology) (t : NeuriteFilter)
    (hreg : registry name = none) :
    get name m t = Except.error NeuromError.UnknownFeature := by
  unfold get
  rw [hreg]

theorem get_ok_of_registered {name : String} (m : Morphology) (t : NeuriteFilter)
    (hreg : registry name ≠ none) :
    ∃ xs, get name m t = Except.ok xs := by
  unfold get
  rcases h : registry name with _ | ft
  · exact absurd h hreg
  · rcases ft with f | f
    · exact ⟨_, rfl⟩
    · exact ⟨_, rfl⟩

theorem iter_sections_C5 : iter_sections neuriteC5 = [rootC5, child1C5, child2C5] := by
  rw [iter_sections]
  show preorder rootC5 = _
  conv_lhs => rw [rootC5]
  rw [preorder, preorderL]
  conv_lhs => rw [child1C5]
  rw [preorder, preorderL, preorderL]
  conv_lhs => rw [child2C5]
  rw [preorder, preorderL]
  rw [rootC5, child1C5, child2C5]
  simp

theorem section_length_rootC5 : section_length rootC5 = 1 := by
  rw [section_length, rootC5]
  simp [SectionTree.points, iter_segments, segment_length, dist3, norm3, sub3, dot3, pt]

theorem section_length_child1C5 : section_length child1C5 = Real.sqrt 2 := by
  rw [section_length, child1C5]
  simp [SectionTree.points, iter_segments, segment_length, dist3, norm3, sub3, dot3, pt]
  norm_num

theorem section_length_child2C5 : section_length child2C5 = Real.sqrt 2 := by
  rw [section_length, child2C5]
  simp [SectionTree.points, iter_segments, segment_length, dist3, norm3, sub3, dot3, pt]
  norm_num

theorem angle_eval : angleBetween ⟨1, 1, 0⟩ ⟨1, -1, 0⟩ = Except.ok (Real.pi / 2) := by
  have h1 : dot3 ⟨1, 1, 0⟩ ⟨1, 1, 0⟩ = 2 := by simp [dot3]; norm_num
  have h2 : dot3 ⟨1, -1, 0⟩ ⟨1, -1, 0⟩ = 2 := by simp [dot3]; norm_num
  have h3 : dot3 ⟨1, 1, 0⟩ ⟨1, -1, 0⟩ = 0 := by simp [dot3]
  have hn1 : norm3 ⟨1, 1, 0⟩ = Real.sqrt 2 := by rw [norm3, h1]
  have hn2 : norm3 ⟨1, -1, 0⟩ = Real.sqrt 2 := by rw [norm3, h2]
  have hs : Real.sqrt 2 ≠ 0 := by positivity
  rw [angleBetween, if_neg (by rw [hn1, hn2]; push_neg; exact ⟨hs, hs⟩)]
  rw [h3, zero_div, Real.arccos_zero]

theorem local_angle_C5 :
    local_bifurcation_angle rootC5 = some (Except.ok (Real.pi / 2)) := by
  have hstep : local_bifurcation_angle rootC5 =
      some (angleBetween (sub3 (point_at child1C5 1) (end_point rootC5))
                         (sub3 (point_at child2C5 1) (end_point rootC5))) := by
    rw [local_bifurcation_angle, show rootC5.children = [child1C5, child2C5] from by rw [rootC5]; rfl]
  have hp1 : point_at child1C5 1 = ⟨2, 1, 0⟩ := by
    rw [point_at, child1C5]
    simp [SectionTree.points, pt]
  have hp2 : point_at child2C5 1 = ⟨2, -1, 0⟩ := by
    rw [point_at, child2C5]
    simp [SectionTree.points, pt]
  have hep : end_point rootC5 = ⟨1, 0, 0⟩ := by
    rw [end_point, rootC5]
    simp [SectionTree.points, pt]
  rw [hstep, hp1, hp2, hep]
  rw [show sub3 ⟨2, 1, 0⟩ ⟨1, 0, 0⟩ = (⟨1, 1, 0⟩ : Vec3) from by rw [sub3]; norm_num]
  rw [show sub3 ⟨2, -1, 0⟩ ⟨1, 0, 0⟩ = (⟨1, -1, 0⟩ : Vec3) from by rw [sub3]; norm_num]
  rw [angle_eval]

theorem get_section_lengths_C5 :
    get "section_lengths" morphC5 NeuriteFilter.all = Except.ok [1, Real.sqrt 2, Real.sqrt 2] := by
  rw [get_eq_of_neuriteF morphC5 NeuriteFilter.all
    (show registry "section_lengths" = some (Feature.neuriteF section_lengths_feat) from rfl)]
  rw [show morphC5.neurites = [neuriteC5] from rfl]
  rw [show List.filter (matches_filter NeuriteFilter.all) [neuriteC5] = [neuriteC5] from by
    simp [matches_filter]]
  rw [List.map_cons, List.map_nil]
  rw [show section_lengths_feat morphC5.soma neuriteC5 = [1, Real.sqrt 2, Real.sqrt 2] from by
    rw [section_lengths_feat, iter_sections_C5]
    rw [List.map_cons, List.map_cons, List.map_cons, List.map_nil]
    rw [section_length_rootC5, section_length_child1C5, section_length_child2C5]]
  simp

theorem get_number_of_sections_C5 :
    get "number_of_sections" morphC5 (NeuriteFilter.only BranchType.axon) = Except.ok [3] := by
  rw [get_eq_of_neuriteF morphC5 (NeuriteFilter.only BranchType.axon)
    (show registry "number_of_sections" = some (Feature.neuriteF number_of_sections_feat) from rfl)]
  rw [show morphC5.neurites = [neuriteC5] from rfl]
  rw [show List.filter (matches_filter (NeuriteFilter.only BranchType.axon)) [neuriteC5]
      = [neuriteC5] from by
    simp [matches_filter, neurite_type, neuriteC5, rootC5, SectionTree.btype]]
  rw [List.map_cons, List.map_nil]
  rw [show number_of_sections_feat morphC5.soma neuriteC5 = [3] from by
    rw [number_of_sections_feat, iter_sections_C5]
    norm_num]
  simp

theorem get_number_of_neurites_C5 :
    get "number_of_neurites" morphC5 NeuriteFilter.all = Except.ok [1] := by
  rw [get_eq_of_morphF morphC5 NeuriteFilter.all
    (show registry "number_of_neurites" = some (Feature.morphF number_of_neurites_feat) from rfl)]
  rw [number_of_neurites_feat]
  rw [show morphC5.neurites = [neuriteC5] from rfl]
  rw [show List.filter (matches_filter NeuriteFilter.all) [neuriteC5] = [neuriteC5] from by
    simp [matches_filter]]
  norm_num

theorem get_section_lengths_C5_basal_empty :
    get "section_lengths" morphC5 (NeuriteFilter.only BranchType.basal_dendrite)
      = Except.ok [] := by
  rw [get_eq_of_neuriteF morphC5 (NeuriteFilter.only BranchType.basal_dendrite)
    (show registry "section_lengths" = some (Feature.neuriteF section_lengths_feat) from rfl)]
  rw [show morphC5.neurites = [neuriteC5] from rfl]
  rw [show List.filter (matches_filter (NeuriteFilter.only BranchType.basal_dendrite)) [neuriteC5]
      = [] from by
    simp [matches_filter, neurite_type, neuriteC5, rootC5, SectionTree.btype]]
  simp

theorem iter_sections_A : iter_sections neuriteA = [secA] := by
  rw [iter_sections]
  show preorder secA = _
  conv_lhs => rw [secA]
  rw [preorder, preorderL]
  rw [secA]

theorem get_number_of_sections_two :
    get "number_of_sections" morphTwo NeuriteFilter.all = Except.ok [1, 1] := by
  rw [get_eq_of_neuriteF morphTwo NeuriteFilter.all
    (show registry "number_of_sections" = some (Feature.neuriteF number_of_sections_feat) from rfl)]
  rw [show morphTwo.neurites = [neuriteA, neuriteA] from rfl]
  rw [show List.filter (matches_filter NeuriteFilter.all) [neuriteA, neuriteA]
      = [neuriteA, neuriteA] from by simp [matches_filter]]
  simp only [List.map_cons, List.map_nil]
  rw [show number_of_sections_feat morphTwo.soma neuriteA = [1] from by
    rw [number_of_sections_feat, iter_sections_A]
    norm_num]
  simp

theorem get_per_neurite_two :
    get "number_of_sections_per_neurite" morphTwo NeuriteFilter.all = Except.ok [1, 1] := by
  rw [get_eq_of_morphF morphTwo NeuriteFilter.all
    (show registry "number_of_sections_per_neurite"
      = some (Feature.morphF number_of_sections_per_neurite_feat) from rfl)]
  rw [number_of_sections_per_neurite_feat]
  rw [show morphTwo.neurites = [neuriteA, neuriteA] from rfl]
  rw [show List.filter (matches_filter NeuriteFilter.all) [neuriteA, neuriteA]
      = [neuriteA, neuriteA] from by simp [matches_filter]]
  simp only [List.map_cons, List.map_nil]
  rw [iter_sections_A]
  norm_num

theorem flatten_map_singleton {α β : Type} (f : α → β) :
    ∀ l : List α, (l.map (fun x => [f x])).flatten = l.map f := by
  intro l
  induction l with
  | nil => simp
  | cons x xs ih => simp [ih]

/-- Claim C1: for every morphology, registered neurite-level feature and
branch-type filter, `get` applies the feature function to exactly the
subsequence of the morphology's neurites whose BranchType matches the
filter (all of them under `ALL`), in morphology order, and concatenates the
per-neurite result sequences in that order; an empty selection yields the
empty sequence and no error. -/
theorem C1_neurite_dispatch (name : String) (f : Soma → Neurite → List ℝ)
    (m : Morphology) (t : NeuriteFilter)
    (hreg : registry name = some (Feature.neuriteF f)) :
    get name m t
        = Except.ok (((m.neurites.filter (matches_filter t)).map (f m.soma)).flatten) ∧
    List.Sublist (m.neurites.filter (matches_filter t)) m.neurites ∧
    m.neurites.filter (matches_filter NeuriteFilter.all) = m.neurites ∧
    (m.neurites.filter (matches_filter t) = [] → get name m t = Except.ok []) := by
  refine ⟨get_eq_of_neuriteF m t hreg, List.filter_sublist m.neurites, ?_, ?_⟩
  · simp [matches_filter]
  · intro hempty
    rw [get_eq_of_neuriteF m t hreg, hempty]
    rfl

/-- Witness for C1: the registered neurite-level feature `section_lengths`
queried on the concrete one-axon morphology with a basal-dendrite filter
selects no neurite and returns the empty sequence without error. -/
theorem C1_witness :
    get "section_lengths" morphC5 (NeuriteFilter.only BranchType.basal_dendrite)
      = Except.ok [] := by
  have h := C1_neurite_dispatch "section_lengths" section_lengths_feat morphC5
    (NeuriteFilter.only BranchType.basal_dendrite) rfl
  exact h.2.2.2 (by
    rw [show morphC5.neurites = [neuriteC5] from rfl]
    simp [matches_filter, neurite_type, neuriteC5, rootC5, SectionTree.btype])

/-- Claim C2: pre-order depth-first `iter_sections` yields every section of
the neurite exactly once (the visited addresses are exactly the valid
addresses, without duplicates), yields each section strictly before any of
its descendants, and visits the children of each section in their stored
order. -/
theorem C2_preorder_traversal (n : Neurite) :
    iter_sections n = (preorderAddrs n.root).filterMap (subtreeAt n.root) ∧
    (∀ a, a ∈ preorderAddrs n.root ↔ validAddr n.root a = true) ∧
    (preorderAddrs n.root).Nodup ∧
    (∀ a b, b ≠ [] → validAddr n.root (a ++ b) = true →
      List.Sublist [a, a ++ b] (preorderAddrs n.root)) ∧
    (∀ a i j, i < j → validAddr n.root (a ++ [j]) = true →
      List.Sublist [a ++ [i], a ++ [j]] (preorderAddrs n.root)) := by
  refine ⟨(filterMap_preorderAddrs n.root).symm,
          fun a => mem_preorderAddrs_iff_valid n.root a,
          nodup_preorderAddrs n.root, ?_, ?_⟩
  · intro a b hb hv
    have hmem2 : (a ++ b) ∈ preorderAddrs n.root :=
      (mem_preorderAddrs_iff_valid n.root (a ++ b)).2 hv
    have hmem1 : a ∈ preorderAddrs n.root :=
      (mem_preorderAddrs_iff_valid n.root a).2 (validAddr_append_left a b n.root hv)
    rcases b with _ | ⟨i, rest⟩
    · exact absurd rfl hb
    · exact sorted_pair_sublist (sorted_preorderAddrs n.root)
        (lex_append_cons a i rest) hmem1 hmem2
  · intro a i j hij hvj
    have hvi := validAddr_concat_lt a n.root i j hij hvj
    have hm1 := (mem_preorderAddrs_iff_valid n.root (a ++ [i])).2 hvi
    have hm2 := (mem_preorderAddrs_iff_valid n.root (a ++ [j])).2 hvj
    have hlex : List.Lex (fun x y => x < y) (a ++ [i]) (a ++ [j]) :=
      List.Lex.append_left _ (List.Lex.rel hij) a
    exact sorted_pair_sublist (sorted_preorderAddrs n.root) hlex hm1 hm2

/-- Witness for C2: on the concrete bifurcating axon, the root is visited
before its first child, and the first child before the second. -/
theorem C2_witness :
    ([0] ∈ preorderAddrs rootC5 ↔ validAddr rootC5 [0] = true) ∧
    List.Sublist [([] : List ℕ), [0]] (preorderAddrs rootC5) ∧
    List.Sublist [[0], [1]] (preorderAddrs rootC5) := by
  refine ⟨(C2_preorder_traversal neuriteC5).2.1 [0], ?_, ?_⟩
  · have h := (C2_preorder_traversal neuriteC5).2.2.2.1 [] [0] (by simp)
      (show validAddr neuriteC5.root ([] ++ [0]) = true from by
        rw [List.nil_append]
        rw [show neuriteC5.root = rootC5 from rfl, rootC5]
        rfl)
    simpa using h
  · have h := (C2_preorder_traversal neuriteC5).2.2.2.2 [] 0 1 (by norm_num)
      (show validAddr neuriteC5.root ([] ++ [1]) = true from by
        rw [List.nil_append]
        rw [show neuriteC5.root = rootC5 from rfl, rootC5]
        rfl)
    simpa using h

/-- Claim C3: for every section of a tree, `path_distance` equals the sum
of `section_length` over `path_to_root`; consequently it satisfies the
parent recurrence, equals `section_length` at the root, and is
non-decreasing along ancestors. -/
theorem C3_path_distance (t : SectionTree) :
    (∀ a, path_distance t a = ((path_to_root t a).map section_length).sum) ∧
    (∀ a i s, subtreeAt t (a ++ [i]) = some s →
      path_distance t (a ++ [i]) = path_distance t a + section_length s) ∧
    path_distance t [] = section_length t ∧
    (∀ a b, path_distance t a ≤ path_distance t (a ++ b)) := by
  refine ⟨fun a => rfl, ?_, path_distance_root t, fun a b => path_distance_mono t a b⟩
  intro a i s hs
  rw [path_distance_concat t a i, hs]
  exact add_comm _ _

/-- Witness for C3: on the concrete bifurcating axon the path distance of
the first child is the root's section length plus the child's. -/
theorem C3_witness :
    path_distance rootC5 [0] = path_distance rootC5 [] + section_length child1C5 := by
  have h := (C3_path_distance rootC5).2.1 [] 0 child1C5
    (show subtreeAt rootC5 ([] ++ [0]) = some child1C5 from by
      rw [List.nil_append, rootC5]
      rfl)
  simpa using h

/-- Claim C4: for every section, `section_length` is exactly the sum of
`segment_length` over `iter_segments`, and a section of two identical
points has length 0 and raises no error (the function is total). -/
theorem C4_section_length :
    (∀ s : SectionTree,
      section_length s = ((iter_segments s.points).map segment_length).sum) ∧
    (∀ (p : Point) (b : BranchType) (cs : List SectionTree),
      section_length (SectionTree.node [p, p] b cs) = 0) := by
  refine ⟨fun s => rfl, ?_⟩
  intro p b cs
  rw [section_length]
  simp [SectionTree.points, iter_segments, segment_length, dist3, norm3, sub3, dot3]

/-- Claim C5: on the concrete morphology with one AXON neurite of three
two-point sections — root (0,0,0)–(1,0,0) with children (1,0,0)–(2,1,0) and
(1,0,0)–(2,-1,0) — the axon section count is 3, the section lengths are
[1, √2, √2], the local bifurcation angle at the root is π/2, and
`get('number_of_neurites')` is the single-element sequence [1]. -/
theorem C5_concrete_scenario :
    get "number_of_sections" morphC5 (NeuriteFilter.only BranchType.axon) = Except.ok [3] ∧
    get "section_lengths" morphC5 NeuriteFilter.all
      = Except.ok [1, Real.sqrt 2, Real.sqrt 2] ∧
    local_bifurcation_angle rootC5 = some (Except.ok (Real.pi / 2)) ∧
    get "number_of_neurites" morphC5 NeuriteFilter.all = Except.ok [1] :=
  ⟨get_number_of_sections_C5, get_section_lengths_C5, local_angle_C5,
   get_number_of_neurites_C5⟩

theorem angle_ok_bounds (u v : Vec3) (θ : ℝ) (h : angleBetween u v = Except.ok θ) :
    0 ≤ θ ∧ θ ≤ Real.pi := by
  rw [angleBetween] at h
  split_ifs at h with hdeg
  cases h
  exact ⟨Real.arccos_nonneg _, Real.arccos_le_pi _⟩

/-- Claim C6: the local and remote bifurcation angles are defined exactly
for sections with 2 children; whenever they return a value (non-degenerate
geometry) it lies in [0, π]; and sections with 0, 1 or more than 2
children are excluded from the batched angle features, which never raise
an error. -/
theorem C6_bifurcation_angles (s : SectionTree) :
    ((local_bifurcation_angle s).isSome = true ↔ s.children.length = 2) ∧
    ((remote_bifurcation_angle s).isSome = true ↔ s.children.length = 2) ∧
    (∀ θ, local_bifurcation_angle s = some (Except.ok θ) → 0 ≤ θ ∧ θ ≤ Real.pi) ∧
    (∀ θ, remote_bifurcation_angle s = some (Except.ok θ) → 0 ≤ θ ∧ θ ≤ Real.pi) ∧
    (∀ (m : Morphology) (t : NeuriteFilter),
      (∃ xs, get "local_bifurcation_angles" m t = Except.ok xs) ∧
      (∃ xs, get "remote_bifurcation_angles" m t = Except.ok xs)) := by
  cases s with
  | node ps b cs =>
    refine ⟨?_, ?_, ?_, ?_, ?_⟩
    · rw [local_bifurcation_angle]
      simp only [SectionTree.children]
      rcases cs with _ | ⟨c1, _ | ⟨c2, _ | ⟨c3, rest⟩⟩⟩ <;> simp
    · rw [remote_bifurcation_angle]
      simp only [SectionTree.children]
      rcases cs with _ | ⟨c1, _ | ⟨c2, _ | ⟨c3, rest⟩⟩⟩ <;> simp
    · intro th hth
      rw [local_bifurcation_angle] at hth
      simp only [SectionTree.children] at hth
      rcases cs with _ | ⟨c1, _ | ⟨c2, _ | ⟨c3, rest⟩⟩⟩
      · cases hth
      · cases hth
      · exact angle_ok_bounds _ _ th (Option.some.inj hth)
      · cases hth
    · intro th hth
      rw [remote_bifurcation_angle] at hth
      simp only [SectionTree.children] at hth
      rcases cs with _ | ⟨c1, _ | ⟨c2, _ | ⟨c3, rest⟩⟩⟩
      · cases hth
      · cases hth
      · exact angle_ok_bounds _ _ th (Option.some.inj hth)
      · cases hth
    · intro m t
      exact ⟨⟨_, get_eq_of_neuriteF m t rfl⟩, ⟨_, get_eq_of_neuriteF m t rfl⟩⟩

/-- Witness for C6: the concrete bifurcation root has a defined local
angle, and the returned value π/2 lies in [0, π]. -/
theorem C6_witness :
    (local_bifurcation_angle rootC5).isSome = true ∧
    (0 ≤ Real.pi / 2 ∧ Real.pi / 2 ≤ Real.pi) := by
  refine ⟨((C6_bifurcation_angles rootC5).1).2 (by rw [rootC5]; rfl), ?_⟩
  exact (C6_bifurcation_angles rootC5).2.2.1 (Real.pi / 2) local_angle_C5

/-- Claim C7: an angle computation whose direction vector has zero length
returns the defined failure `DegenerateGeometry`, never an ordinary value;
and the error stays scoped to the single computation — the registry-level
`get` dispatch never surfaces `DegenerateGeometry` (the documented policy
skips the offending section and continues). -/
theorem C7_degenerate_geometry :
    (∀ u v : Vec3, norm3 u = 0 ∨ norm3 v = 0 →
      angleBetween u v = Except.error NeuromError.DegenerateGeometry ∧
      ∀ θ, angleBetween u v ≠ Except.ok θ) ∧
    (∀ (name : String) (m : Morphology) (t : NeuriteFilter),
      get name m t ≠ Except.error NeuromError.DegenerateGeometry) := by
  constructor
  · intro u v h
    have he : angleBetween u v = Except.error NeuromError.DegenerateGeometry := by
      rw [angleBetween, if_pos h]
    refine ⟨he, fun θ hok => ?_⟩
    rw [he] at hok
    cases hok
  · intro name m t
    rcases hreg : registry name with _ | ft
    · rw [get_eq_of_unregistered m t hreg]
      simp
    · rcases ft with f | f
      · rw [get_eq_of_neuriteF m t hreg]
        simp
      · rw [get_eq_of_morphF m t hreg]
        simp

/-- Witness for C7: the zero direction vector makes the angle computation
fail with `DegenerateGeometry`. -/
theorem C7_witness :
    angleBetween ⟨0, 0, 0⟩ ⟨1, 0, 0⟩ = Except.error NeuromError.DegenerateGeometry := by
  have h0 : norm3 ⟨0, 0, 0⟩ = 0 := by
    rw [norm3, show dot3 ⟨0, 0, 0⟩ ⟨0, 0, 0⟩ = 0 from by simp [dot3]]
    exact Real.sqrt_zero
  exact (C7_degenerate_geometry.1 ⟨0, 0, 0⟩ ⟨1, 0, 0⟩ (Or.inl h0)).1

/-- Claim C8: `get` fails with `UnknownFeature` — and with nothing else —
exactly on names that are not registered; every registered name succeeds. -/
theorem C8_unknown_feature (name : String) (m : Morphology) (t : NeuriteFilter) :
    (registry name = none → get name m t = Except.error NeuromError.UnknownFeature) ∧
    (∀ e, get name m t = Except.error e →
      e = NeuromError.UnknownFeature ∧ registry name = none) ∧
    (registry name ≠ none → ∃ xs, get name m t = Except.ok xs) := by
  refine ⟨fun h => get_eq_of_unregistered m t h, ?_, fun h => get_ok_of_registered m t h⟩
  intro e he
  rcases hreg : registry name with _ | ft
  · rw [get_eq_of_unregistered m t hreg] at he
    injection he with h'
    exact ⟨h'.symm, rfl⟩
  · rcases ft with f | f
    · rw [get_eq_of_neuriteF m t hreg] at he
      cases he
    · rw [get_eq_of_morphF m t hreg] at he
      cases he

/-- Witness for C8: the unregistered name fails with `UnknownFeature` and
the registered name `number_of_sections` succeeds. -/
theorem C8_witness :
    get "unknown_feature_xyz" morphC5 NeuriteFilter.all
      = Except.error NeuromError.UnknownFeature ∧
    ∃ xs, get "number_of_sections" morphC5 NeuriteFilter.all = Except.ok xs := by
  refine ⟨(C8_unknown_feature "unknown_feature_xyz" morphC5 NeuriteFilter.all).1 rfl, ?_⟩
  refine (C8_unknown_feature "number_of_sections" morphC5 NeuriteFilter.all).2.2 ?_
  rw [show registry "number_of_sections"
    = some (Feature.neuriteF number_of_sections_feat) from rfl]
  simp

/-- Counterexample to claim C9 as stated: on a morphology with two
single-section axon neurites, `get('number_of_sections')` is the
two-element sequence [1, 1] (one count per neurite), not a single-element
sequence holding the per-neurite sum 1 + 1. -/
theorem C9_counterexample :
    get "number_of_sections_per_neurite" morphTwo NeuriteFilter.all = Except.ok [1, 1] ∧
    get "number_of_sections" morphTwo NeuriteFilter.all = Except.ok [1, 1] ∧
    get "number_of_sections" morphTwo NeuriteFilter.all ≠ Except.ok [(1 : ℝ) + 1] := by
  refine ⟨get_per_neurite_two, get_number_of_sections_two, ?_⟩
  rw [get_number_of_sections_two]
  intro h
  injection h with h'
  have hlen := congrArg List.length h'
  simp at hlen

/-- Claim C9 (amended): with the default ALL filter,
`get('number_of_sections')` returns one section count per neurite of the
morphology, in morphology order — entrywise equal to
`get('number_of_sections_per_neurite')`, so the two have the same sum —
and the i-th entry is the section count of the i-th neurite. -/
theorem C9_amended (m : Morphology) :
    get "number_of_sections_per_neurite" m NeuriteFilter.all
      = Except.ok (m.neurites.map (fun n => ((iter_sections n).length : ℝ))) ∧
    get "number_of_sections" m NeuriteFilter.all
      = Except.ok (m.neurites.map (fun n => ((iter_sections n).length : ℝ))) ∧
    (∀ i, i < m.neurites.length →
      (m.neurites.map (fun n => ((iter_sections n).length : ℝ))).get? i
        = (m.neurites.get? i).map (fun n => ((iter_sections n).length : ℝ))) := by
  refine ⟨?_, ?_, ?_⟩
  · rw [get_eq_of_morphF m NeuriteFilter.all (show registry "number_of_sections_per_neurite"
      = some (Feature.morphF number_of_sections_per_neurite_feat) from rfl)]
    rw [number_of_sections_per_neurite_feat]
    rw [show m.neurites.filter (matches_filter NeuriteFilter.all) = m.neurites from by
      simp [matches_filter]]
  · rw [get_eq_of_neuriteF m NeuriteFilter.all (show registry "number_of_sections"
      = some (Feature.neuriteF number_of_sections_feat) from rfl)]
    rw [show m.neurites.filter (matches_filter NeuriteFilter.all) = m.neurites from by
      simp [matches_filter]]
    rw [show List.map (number_of_sections_feat m.soma) m.neurites
        = m.neurites.map (fun n => [((iter_sections n).length : ℝ)]) from rfl]
    rw [flatten_map_singleton (fun n => ((iter_sections n).length : ℝ)) m.neurites]
  · intro i _
    rw [List.get?_map]

/-- Witness for C9 (amended): instantiated on the two-neurite morphology at
index 0. -/
theorem C9_witness :
    (morphTwo.neurites.map (fun n => ((iter_sections n).length : ℝ))).get? 0
      = (morphTwo.neurites.get? 0).map (fun n => ((iter_sections n).length : ℝ)) := by
  refine (C9_amended morphTwo).2.2 0 ?_
  rw [show morphTwo.neurites = [neuriteA, neuriteA] from rfl]
  norm_num

/-- Claim C10: for every data sequence and supported distribution name,
`fit` returns a FitResult whose `params` field is the sequence of fitted
real parameters and whose `errs` field is the (distance, p-value) pair. -/
theorem C10_fit_contract (data : List ℝ) (distribution : String)
    (h : distribution ∈ supported_distributions) :
    ∃ r : FitResults, fit data distribution = some r ∧
      r.params = [data_mean data, data_std data] ∧
      r.errs = fit_errors data distribution := by
  refine ⟨⟨[data_mean data, data_std data], fit_errors data distribution⟩, ?_, rfl, rfl⟩
  rw [fit, if_pos h]

/-- Witness for C10: fitting a concrete two-point data set with the
supported normal distribution. -/
theorem C10_witness :
    ∃ r : FitResults, fit [1, 2] "norm" = some r ∧
      r.params = [data_mean [1, 2], data_std [1, 2]] ∧
      r.errs = fit_errors [1, 2] "norm" :=
  C10_fit_contract [1, 2] "norm" (by simp [supported_distributions])

end NeuroM
